import Mathlib

/-!
# Verification of the quantum k-means implementation (`qkmeans.py`)

This file gives a shallow embedding, in Lean 4, of the classical
orchestration logic of the quantum k-means module: the batcher
(`batch_separate`, `batch_collect`, `batch_distances`), the measurement
histogram decoders of `distance` and `batch_distance`, the swap-test
circuit builders (as symbolic gate lists), the qk-means++ seeder
(`qkmeans_plusplus`), and the `QuantumKMeans` fit / predict loops.

The quantum backend is out of scope (the spec treats it as an opaque
collaborator): every executed circuit's decoded distance for a
(point, center) pair is abstracted as an oracle function, and returned
measurement histograms are abstracted as association lists from bitstring
to count.  Distances and vector entries are modelled as rationals (every
value the code manipulates in the properties below is a ratio of counts
to the fixed 1024 shots, or finite arithmetic on such values).

Python/numpy failure modes (raised exceptions, out-of-bounds indexing,
`NotImplementedError`, reading an unbound local) are modelled with
`Option`: `none` means the call crashes instead of returning a value.
-/

/-! ## Generic list utilities used by the embedding -/

/-- Fuel-driven worker for `chunkList` (structural recursion so that the
kernel can evaluate it). The fuel is always instantiated with the length
of the list, which bounds the number of produced chunks. -/
def chunkListF {α : Type _} (m : ℕ) : ℕ → List α → List (List α)
  | 0, _ => []
  | _, [] => []
  | fuel + 1, l@(_ :: _) => l.take m :: chunkListF m fuel (l.drop m)

/-- `np.split(X, [m, 2m, ...])`: cut a list into consecutive chunks of
size `m`, the last chunk possibly smaller.  For `m = 0` the Python code
would divide by zero; callers guard that case separately. -/
def chunkList {α : Type _} (m : ℕ) (l : List α) : List (List α) :=
  if m = 0 then [] else chunkListF m l.length l

/-- Retrieve the element at a nonnegative integer offset (`none` when
the list is exhausted or the offset never reaches `0`). -/
def listGetZ {α : Type _} : List α → ℤ → Option α
  | [], _ => none
  | a :: t, i => if i = 0 then some a else listGetZ t (i - 1)

/-- numpy integer indexing on axis 0: a nonnegative index must be below
the length, a negative index wraps around once; anything else raises
`IndexError` (modelled as `none`). -/
def npIndex {α : Type _} (l : List α) (i : ℤ) : Option α :=
  if 0 ≤ i then listGetZ l i
  else if -i ≤ (l.length : ℤ) then listGetZ l (l.length + i) else none

/-- Gather the rows of `bd` at a list of (possibly negative) numpy
indices; any out-of-range index makes the whole gather fail, like the
`IndexError` the corresponding loop in the source would raise. -/
def npGather {α : Type _} (bd : List α) : List ℤ → Option (List α)
  | [] => some []
  | i :: is =>
    match npIndex bd i, npGather bd is with
    | some r, some rs => some (r :: rs)
    | _, _ => none

/-- Worker for `argminList`: `i` is the index of the next element, `bi`
the index of the best (first minimal) element so far and `bv` its value. -/
def argminGo (i bi : ℕ) (bv : ℚ) : List ℚ → ℕ
  | [] => bi
  | v :: rest => if v < bv then argminGo (i + 1) i v rest else argminGo (i + 1) bi bv rest

/-- `np.argmin` on a vector: index of the first minimal entry.
`np.argmin` raises on an empty array; the embedding returns `0` there,
and every use in this file is guarded by a nonemptiness hypothesis. -/
def argminList : List ℚ → ℕ
  | [] => 0
  | v :: rest => argminGo 1 0 v rest

/-- `np.cumsum` / `sklearn.stable_cumsum` of a vector. -/
def cumsum (l : List ℚ) : List ℚ :=
  (l.foldl (fun acc v => (acc.1 + v, acc.2 ++ [acc.1 + v])) (0, [])).2

/-- Fuel-driven binary search worker implementing Python/numpy
`bisect_left`; the interval `[lo, hi)` shrinks at every step, so fuel
`a.length + 1` never runs out. -/
def bisectGo (a : List ℚ) (v : ℚ) : ℕ → ℕ → ℕ → ℕ
  | 0, lo, _ => lo
  | fuel + 1, lo, hi =>
    if lo < hi then
      let mid := (lo + hi) / 2
      if a.getD mid 0 < v then bisectGo a v fuel (mid + 1) hi
      else bisectGo a v fuel lo mid
    else lo

/-- `np.searchsorted(a, v)` (side left): first index at which `v` could
be inserted keeping `a` sorted. -/
def searchsorted (a : List ℚ) (v : ℚ) : ℕ :=
  bisectGo a v (a.length + 1) 0 a.length

/-! ## Batcher: `batch_separate`, `batch_collect`, `batch_distances`

`src/qkmeans.py` lines 151-183, 407-430, 432-456.  Data points and
cluster centers are abstract (`α`, `β`); the decoded swap-test distance
of a (point, center) pair is an oracle `d : α → β → ℚ`, which captures
"identical simulated measurement outcomes for each pair" when comparing
the batched and unbatched pipelines. -/

/-- `batch_separate(X, clusters, max_experiments)`: chunk `X` into runs
of at most `max_experiments` rows and pair every chunk with every
center, chunk-major / center-minor (`batches[i] = (chunk (i / k),
cluster (i % k))` in the source).  The reverse shape
(`len(X) <= len(clusters)`) raises `NotImplementedError`, and
`max_experiments = 0` raises `ZeroDivisionError`; both are `none`. -/
def batch_separate {α β : Type _} (X : List α) (clusters : List β) (m : ℕ) :
    Option (List (List α × β)) :=
  if m = 0 then none
  else if clusters.length < X.length then
    some ((chunkList m X).flatMap fun ch => clusters.map fun c => (ch, c))
  else none

/-- `batch_collect(batch_d, desired_shape)`: the two copy loops of the
source, written functionally.  Row `i` of the intermediate array is
`batch_d[k*i]` for `i < R // k` and `batch_d[k*i - R + 1]` for the
remaining `i` (`R` rows total, desired shape `(k, n)`); the result is
reshaped to `k` rows of `n`.  `desired_shape[0] = 0` is Python's
`ZeroDivisionError` and a failing reshape raises, both `none`. -/
def batch_collect (batch_d : List (List ℚ)) (k n : ℕ) : Option (List (List ℚ)) :=
  if k = 0 then none
  else
    let R := batch_d.length
    let idx : List ℤ := (List.range R).map fun i =>
      if i < R / k then (k : ℤ) * i else (k : ℤ) * i - R + 1
    match npGather batch_d idx with
    | none => none
    | some final =>
      let flat := final.flatten
      if flat.length = k * n then some (chunkList n flat) else none

/-- `batch_distances(X, cluster_centers, ...)`: separate into batches,
run `batch_distance` on each batch (under the pair oracle `d`, a batch
`(chunk, c)` yields the list of decoded distances of the chunk's points
to `c`), assemble the per-batch rows with `np.asarray` (which needs all
rows to have equal length; ragged rows fail) and collect into the
`(len(clusters), len(X))` distance matrix. -/
def batch_distances {α β : Type _} (X : List α) (clusters : List β) (m : ℕ)
    (d : α → β → ℚ) : Option (List (List ℚ)) :=
  match batch_separate X clusters m with
  | none => none
  | some batches =>
    let bd := batches.map fun b => b.1.map fun x => d x b.2
    if bd.all fun r => r.length = (bd.headD []).length then
      batch_collect bd clusters.length X.length
    else none

/-- The unbatched per-pair estimator: the comprehension
`[[distance(point, centroid) for point in X] for centroid in clusters]`
used by `fit`, `predict` and `qkmeans_plusplus` when `batch=False`;
row `j` holds the distances of every point to center `j`. -/
def unbatched_distances {α β : Type _} (X : List α) (clusters : List β)
    (d : α → β → ℚ) : List (List ℚ) :=
  clusters.map fun c => X.map fun x => d x c

/-! ## Measurement histogram decoding

`result.get_counts()` returns a dict from bitstring to count, modelled
as an association list with distinct keys (insertion order matters only
for the broken `list(data)[-1]` expression).  Shots are fixed at 1024. -/

/-- A measurement histogram: bitstring keys with their counts. -/
abbrev Hist := List (String × ℕ)

/-- Dict lookup `data[key]` (first matching key). -/
def histLookup (key : String) (h : Hist) : Option ℕ :=
  match h with
  | [] => none
  | (k, c) :: rest => if k = key then some c else histLookup key rest

/-- The "divergent" bitstring: `'0' * pre + '1'` (an all-zero run
followed by a trailing one), e.g. `"001"` for `pre = 2`. -/
def divergentKey (pre : ℕ) : String :=
  String.mk (List.replicate pre '0' ++ ['1'])

/-- Decoder of the unbatched angle paths of `distance`
(lines 94-95 and 124-125): `0.0` if the histogram has a single distinct
outcome, else `data['001'] / 1024.` (a missing `'001'` key raises
`KeyError`, modelled as `none`). -/
def decode_distance_angle (h : Hist) : Option ℚ :=
  if h.length = 1 then some 0
  else (histLookup "001" h).map fun c => (c : ℚ) / 1024

/-- Decoder of the batched angle paths of `batch_distance`
(lines 230, 290, 321, 376): identical per-circuit formula to the
unbatched angle decoder. -/
def decode_batch_angle (h : Hist) : Option ℚ :=
  if h.length = 1 then some 0
  else (histLookup "001" h).map fun c => (c : ℚ) / 1024

/-- Decoder of the batched probability paths of `batch_distance`
(lines 253-254, 344-345, 403-404): `data['0'*pre + '1'] / 1024` when the
divergent key is contained in the histogram, else `0.0`.  There is no
single-distinct-outcome special case on this path. -/
def decode_batch_prob (pre : ℕ) (h : Hist) : ℚ :=
  match histLookup (divergentKey pre) h with
  | some c => (c : ℚ) / 1024
  | none => 0

/-- Decoder of the unbatched probability path of `distance`
(lines 148-149): `0.0` for a single distinct outcome, otherwise
`data[list(data)[-1] == '1']`.  The index expression is a *boolean*
(whether the last inserted key equals the string `'1'`); the histogram
keys are bitstrings of the full classical register, so the boolean is
never a key of the dict and the lookup raises `KeyError` (`none`). -/
def decode_distance_prob (h : Hist) : Option ℚ :=
  if h.length = 1 then some 0 else none

/-- The decoding rule as the specification/claim words it: `0.0`
whenever the histogram has exactly one distinct outcome, otherwise the
count of the divergent bitstring (zero when absent) divided by the
fixed 1024 shots. -/
def claimDecode (pre : ℕ) (h : Hist) : ℚ :=
  if h.length = 1 then 0
  else ((histLookup (divergentKey pre) h).getD 0 : ℚ) / 1024

/-! ## Swap-test circuit builders as symbolic gate lists

The builders of `distance` and `batch_distance` are embedded as data:
a circuit is a register size plus the ordered list of appended
operations.  Rotation angles are kept symbolic (`np.angle` of a complex
made from the first two features, or a rational multiple of `π`), which
is exactly the information the source computes before emitting a gate. -/

/-- A symbolic gate angle: `argOf re im` is `np.angle(re + 1j*im)`,
`mulPi c` is `c * π` (so `mulPi 0` is `0` and `mulPi 1` is `π`). -/
inductive AngleE where
  | argOf (re im : ℚ)
  | mulPi (c : ℚ)
deriving DecidableEq, Repr

/-- One appended circuit operation. `prep v qs` is `qc.initialize(v, qs)`
(state preparation of the qubit block `qs` from the amplitude vector
`v`); the rest mirror `qc.h`, `qc.u3`, `qc.cswap`, `qc.measure`,
`qc.reset`. -/
inductive Gate where
  | h (q : ℕ)
  | u3 (theta phi lam : AngleE) (q : ℕ)
  | cswap (c a b : ℕ)
  | prep (v : List ℚ) (qs : List ℕ)
  | measure (q c : ℕ)
  | reset
deriving DecidableEq, Repr

/-- A built circuit: quantum register size, classical register size and
gate sequence. -/
structure Circuit where
  qubits : ℕ
  clbits : ℕ
  gates : List Gate
deriving DecidableEq, Repr

/-- `⌈log2 n⌉` for `n ≥ 1`: the least `k` with `n ≤ 2 ^ k`
(`np.ceil(np.log2(n))`). -/
def ceilLog2 (n : ℕ) : ℕ :=
  ((List.range (n + 1)).find? fun k => n ≤ 2 ^ k).getD 0

/-- `⌊log2 n⌋` for `n ≥ 1`: the greatest `k` with `2 ^ k ≤ n`
(`int(np.log2(n))`). -/
def floorLog2 (n : ℕ) : ℕ :=
  ((List.range (n + 1)).filter fun k => 2 ^ k ≤ n).foldl max 0

/-- Zero-pad a vector to length `2 ^ k`
(`np.zeros(2**k); n_x[:x.size] = x`). -/
def zeroPad (k : ℕ) (v : List ℚ) : List ℚ :=
  v ++ List.replicate (2 ^ k - v.length) 0

/-- Circuit built by the unbatched `distance` for the probability
encoding (lines 126-144).  `qubits = ceil(log2(x.size))`; the source
computes the padded vectors `n_x`, `n_y` but then calls
`qc.initialize(x, ...)` and `qc.initialize(y, ...)` with the *raw*
vectors, so the `prep` gates below carry `x` and `y`, not their
zero-paddings. -/
def distance_prob_circuit (x y : List ℚ) : Circuit :=
  let k := ceilLog2 x.length
  { qubits := 2 * k + 1
    clbits := 2 * k + 1
    gates :=
      [ Gate.prep x ((List.range k).map fun i => i + 1),
        Gate.prep y ((List.range k).map fun i => i + 1 + k),
        Gate.h 0,
        Gate.cswap 0 1 (k + 1),
        Gate.h 0,
        Gate.measure 0 0,
        Gate.reset ] }

/-- Circuit built by `batch_distance` for the probability encoding in
the final (non-power-of-two feature count) branch, lines 377-399: here
the padded vectors *are* the ones prepared. -/
def batch_prob_pad_circuit (dim : ℕ) (point center : List ℚ) : Circuit :=
  let k := if 2 ^ floorLog2 dim = dim then floorLog2 dim else floorLog2 dim + 1
  { qubits := 2 * k + 1
    clbits := 2 * k + 1
    gates :=
      [ Gate.prep (zeroPad k point) ((List.range k).map fun i => i + 1),
        Gate.prep (zeroPad k center) ((List.range k).map fun i => i + 1 + k),
        Gate.h 0,
        Gate.cswap 0 1 (k + 1),
        Gate.h 0,
        Gate.measure 0 0,
        Gate.reset ] }

/-- Circuit built by the unbatched `distance` for the angle encoding
with 3 features and `norm_relevance` (lines 96-120).  Note the fourth
`u3`: the source line 115 applies `u3(ro_2, 0, 0)` to `qr[1]` — the
*first* operand's data qubit — not `qr[2]`. -/
def distance_angle3_circuit (x0 x1 x2 y0 y1 y2 : ℚ) : Circuit :=
  { qubits := 3
    clbits := 3
    gates :=
      [ Gate.h 0, Gate.h 1, Gate.h 2,
        Gate.u3 (AngleE.argOf x0 x1) (AngleE.mulPi 1) (AngleE.mulPi 1) 1,
        Gate.u3 (AngleE.mulPi x2) (AngleE.mulPi 0) (AngleE.mulPi 0) 1,
        Gate.u3 (AngleE.argOf y0 y1) (AngleE.mulPi 1) (AngleE.mulPi 1) 2,
        Gate.u3 (AngleE.mulPi y2) (AngleE.mulPi 0) (AngleE.mulPi 0) 1,
        Gate.cswap 0 1 2,
        Gate.h 0,
        Gate.measure 0 0,
        Gate.reset ] }

/-- Circuit built by `batch_distance` for the angle encoding with 3
features (lines 255-284): the magnitude rotations use `ro = feature[2] *
π / 2` and the second one targets `qr[2]`. -/
def batch_angle3_circuit (x0 x1 x2 y0 y1 y2 : ℚ) : Circuit :=
  { qubits := 3
    clbits := 3
    gates :=
      [ Gate.h 0, Gate.h 1, Gate.h 2,
        Gate.u3 (AngleE.argOf x0 x1) (AngleE.mulPi 1) (AngleE.mulPi 1) 1,
        Gate.u3 (AngleE.mulPi (x2 / 2)) (AngleE.mulPi 0) (AngleE.mulPi 0) 1,
        Gate.u3 (AngleE.argOf y0 y1) (AngleE.mulPi 1) (AngleE.mulPi 1) 2,
        Gate.u3 (AngleE.mulPi (y2 / 2)) (AngleE.mulPi 0) (AngleE.mulPi 0) 2,
        Gate.cswap 0 1 2,
        Gate.h 0,
        Gate.measure 0 0,
        Gate.reset ] }

/-! ## Encoding dispatch of `distance` (lines 53-149) -/

/-- The possible outcomes of a call to `distance` at dispatch level:
a swap-test circuit is built and run, the function falls through and
returns Python `None`, or an exception is raised.  (`raisesError`
represents the `UnsupportedEncodingError` behaviour the specification
asks for; the source never produces it.) -/
inductive DistCall where
  | buildsCircuit
  | returnsNone
  | raisesError
deriving DecidableEq, Repr

/-- Dispatch structure of `distance(x, y, backend, map_type,
norm_relevance)`: `'angle'` handles `x.size == 2` and `x.size == 3 and
norm_relevance`, `'probability'` handles every size; any other
scheme/dimension combination falls off the end of the function body
and returns `None`. -/
def distanceCase (mapType : String) (n : ℕ) (normRelevance : Bool) : DistCall :=
  if mapType = "angle" then
    if n = 2 then DistCall.buildsCircuit
    else if n = 3 ∧ normRelevance then DistCall.buildsCircuit
    else DistCall.returnsNone
  else if mapType = "probability" then DistCall.buildsCircuit
  else DistCall.returnsNone

/-- A scheme/dimension combination not covered by the encoder's cases
(the claim's examples: angle with more than 3 features, angle with 3
features and no `norm_relevance`; also angle with fewer than 2 features
and unrecognized scheme tags). -/
def uncoveredCombo (mapType : String) (n : ℕ) (normRelevance : Bool) : Prop :=
  (mapType = "angle" ∧ ¬(n = 2 ∨ (n = 3 ∧ normRelevance))) ∨
  (mapType ≠ "angle" ∧ mapType ≠ "probability")

/-! ## Seeder: `qkmeans_plusplus` (lines 458-555)

Vectors are rational lists; the decoded pairwise distance is again an
oracle `d` (this models the `batch=False` estimator path; identical
backend responses for the same pair give the same oracle).  The
`np.random.RandomState` draws are abstracted as a seeded stream: one
value for the single `randint(n_samples)` call and, for the `t`-th
`random_sample(trials)` call, the values `draws t 0, ..., draws t
(trials-1)` (all in `[0,1)` for a real generator; no property below
depends on that range). -/

/-- One data row / center. -/
abbrev Vec := List ℚ

/-- The random source consumed by `qkmeans_plusplus`: `rint` feeds the
single `randint` call (reduced mod `n_samples`), `draws t i` is element
`i` of the `t`-th `random_sample` call. -/
structure RNG where
  rint : ℕ
  draws : ℕ → ℕ → ℚ

/-- The mutable loop state of `qkmeans_plusplus`: current centers and
indices arrays, the running closest-distance vector, the current
potential and the number of `random_sample` calls made so far. -/
structure QkppState where
  centers : List Vec
  indices : List ℤ
  closest : List ℚ
  pot : ℚ
  t : ℕ

/-- One candidate-selection pass (the body shared verbatim by the main
loop and the `initial_center == 'far'` block, lines 506-521 and
533-548): draw `trials` scaled random values, look them up in the
cumulative sum of the closest distances, clip to the last valid index,
compute each candidate's distances to all points, take elementwise
minima with the running closest distances, and keep the candidate of
minimal potential.  Returns the chosen row index, the new
closest-distance vector and the new potential. -/
def pickCandidate (X : List Vec) (d : Vec → Vec → ℚ) (trials : ℕ) (rng : RNG)
    (t : ℕ) (closest : List ℚ) (pot : ℚ) : ℕ × List ℚ × ℚ :=
  let randVals := (List.range trials).map fun i => rng.draws t i * pot
  let cs := cumsum closest
  let ids := randVals.map fun v => min (searchsorted cs v) (closest.length - 1)
  let dtc := ids.map fun id =>
    List.zipWith min closest (X.map fun p => d p (X.getD id []))
  let pots := dtc.map fun row => row.sum
  let best := argminList pots
  (ids.getD best 0, dtc.getD best [], pots.getD best 0)

/-- Body of the `for c in range(1, n_clusters)` loop: select a
candidate, commit it as center `c`, and if `c == 1` and
`initial_center == 'far'`, rebuild the closest distances from the new
second center and re-choose center 0 with one extra pass. -/
def qkppBody (X : List Vec) (d : Vec → Vec → ℚ) (trials : ℕ) (rng : RNG)
    (far : Bool) (c : ℕ) (s : QkppState) : QkppState :=
  let r := pickCandidate X d trials rng s.t s.closest s.pot
  let bc := r.1
  let s1 : QkppState :=
    { centers := s.centers.set c (X.getD bc [])
      indices := s.indices.set c (bc : ℤ)
      closest := r.2.1
      pot := r.2.2
      t := s.t + 1 }
  if c = 1 ∧ far then
    let closest2 := X.map fun p => d p (X.getD bc [])
    let pot2 := closest2.sum
    let r2 := pickCandidate X d trials rng s1.t closest2 pot2
    let bc2 := r2.1
    { centers := s1.centers.set 0 (X.getD bc2 [])
      indices := s1.indices.set 0 (bc2 : ℤ)
      closest := r2.2.1
      pot := r2.2.2
      t := s1.t + 1 }
  else s1

/-- Run the loop for the remaining iteration count, `c` being the next
loop counter value. -/
def qkppLoop (X : List Vec) (d : Vec → Vec → ℚ) (trials : ℕ) (rng : RNG)
    (far : Bool) : ℕ → ℕ → QkppState → QkppState
  | _, 0, s => s
  | c, rem + 1, s => qkppLoop X d trials rng far (c + 1) rem (qkppBody X d trials rng far c s)

/-- `qkmeans_plusplus(X, n_clusters, ...)`: pick the first center row
uniformly, fill `indices` with `-1`, compute the initial
closest-distance vector and potential, and run the greedy loop for
centers `1 .. n_clusters-1`.  Returns `(centers, indices)`. -/
def qkmeans_plusplus (X : List Vec) (nClusters : ℕ) (d : Vec → Vec → ℚ)
    (far : Bool) (trials : ℕ) (rng : RNG) : List Vec × List ℤ :=
  let n := X.length
  let cid := rng.rint % n
  let closest0 := X.map fun p => d p (X.getD cid [])
  let s0 : QkppState :=
    { centers := (List.replicate nClusters ([] : Vec)).set 0 (X.getD cid [])
      indices := (List.replicate nClusters (-1 : ℤ)).set 0 (cid : ℤ)
      closest := closest0
      pot := closest0.sum
      t := 0 }
  let s := qkppLoop X d trials rng far 1 (nClusters - 1) s0
  (s.centers, s.indices)

/-! ## Clusterer: `QuantumKMeans.fit` / `predict` (lines 599-655)

The distance-matrix collaborator is abstracted as `estim : List Vec →
List (List ℚ)` (given the current centers it returns the
`(len(centers), len(X))` matrix; both the batched and the unbatched
estimator have this shape when they succeed).  The probability
re-normalization `preprocess(·, 'probability')` applies `sklearn`'s
row-wise L2 `normalize`, whose numeric content (a square root) is
abstracted as a row function `renorm`. -/

/-- Column `i` of a distance matrix (`distances[:, i]`). -/
def columnOf (D : List (List ℚ)) (i : ℕ) : List ℚ :=
  D.map fun row => row.getD i 0

/-- `labels_ = [np.argmin(distances[:, i]) for i in range(n)]`. -/
def assignLabels (D : List (List ℚ)) (n : ℕ) : List ℕ :=
  (List.range n).map fun i => argminList (columnOf D i)

/-- The rows of `X` whose assigned label is `lab`. -/
def ptsWithLabel (X : List Vec) (ls : List ℕ) (lab : ℕ) : List Vec :=
  (X.zip ls).filterMap fun p => if p.2 = lab then some p.1 else none

/-- Elementwise mean of a nonempty group of rows
(`groupby(labels).mean()` for one group). -/
def vecMean (pts : List Vec) : Vec :=
  match pts with
  | [] => []
  | p :: ps => (ps.foldl (fun a b => List.zipWith (· + ·) a b) p).map
      fun v => v / ((ps.length + 1 : ℕ) : ℚ)

/-- The distinct assigned labels in increasing order — the group keys of
`pandas.groupby(labels)` (pandas sorts group keys). -/
def distinctLabels (ls : List ℕ) : List ℕ :=
  (List.range (ls.foldl max 0 + 1)).filter fun lab => lab ∈ ls

/-- `new_centroids`: per-label means of the current assignment, one row
per distinct label in increasing label order; under the probability
encoding the rows are re-normalized by `preprocess` (lines 622-623). -/
def updateCenters (X : List Vec) (ls : List ℕ) (prob : Bool)
    (renorm : Vec → Vec) : List Vec :=
  let g := (distinctLabels ls).map fun lab => vecMean (ptsWithLabel X ls lab)
  if prob then g.map renorm else g

/-- One iteration of the `fit` while-loop up to the centroid update:
estimate the distance matrix, assign labels, recompute centroids.
Returns the new centers and the labels. -/
def fitStep (X : List Vec) (estim : List Vec → List (List ℚ)) (prob : Bool)
    (renorm : Vec → Vec) (C : List Vec) : List Vec × List ℕ :=
  let D := estim C
  let ls := assignLabels D X.length
  (updateCenters X ls prob renorm, ls)

/-- Matrix difference `new_centroids - cluster_centers_` (aligned,
rectangular frames). -/
def matDiff (newC oldC : List (List ℚ)) : List (List ℚ) :=
  List.zipWith (fun a b => List.zipWith (· - ·) a b) newC oldC

/-- `(new - old).sum(axis=0)`: per-column sums of a matrix whose rows
all have the length of the first row. -/
def colSums (M : List (List ℚ)) : List ℚ :=
  (List.range (M.headD []).length).map fun j => (M.map fun r => r.getD j 0).sum

/-- The convergence decision of `fit` (line 627):
`abs((new - old).sum(axis=0).sum()) < tol`. -/
def convCheck (newC oldC : List (List ℚ)) (tol : ℚ) : Bool :=
  |(colSums (matDiff newC oldC)).sum| < tol

/-- The mutable estimator state touched by `fit`: `cluster_centers_`,
`labels_` and `n_iter_` (the constructor sets `n_iter_ := 0`). -/
structure FitState where
  centers : List Vec
  labels : List ℕ
  nIter : ℕ
deriving Repr

/-- The `while not finished and iteration < max_iter` loop of `fit`:
each pass recomputes distances, labels and centroids, increments
`n_iter_` (`self.n_iter_ += 1`, never reset), and stops after the pass
whose convergence check succeeded or when the local iteration counter
reaches `max_iter` (the fuel). -/
def fitLoop (X : List Vec) (estim : List Vec → List (List ℚ)) (prob : Bool)
    (renorm : Vec → Vec) (tol : ℚ) : ℕ → FitState → FitState
  | 0, s => s
  | fuel + 1, s =>
    let r := fitStep X estim prob renorm s.centers
    let s1 : FitState := ⟨r.1, r.2, s.nIter + 1⟩
    if convCheck r.1 s.centers tol then s1
    else fitLoop X estim prob renorm tol fuel s1

/-- `predict(X, sample_weight, batch)` (lines 635-655).  `pre` is the
`preprocess` call, `d` the per-pair decoded distance, `m` the backend's
`max_experiments`.  With a `sample_weight`, the data are elementwise
multiplied by the weights; in the batched branch the source computes
`batch_distances(weight_X, ...)` but never assigns it, so the later
read of the local `distances` raises `UnboundLocalError` (`none`). -/
def QuantumKMeans_predict (pre : List Vec → List Vec) (d : Vec → Vec → ℚ)
    (m : ℕ) (centers : List Vec) (X : List Vec) (sampleWeight : Option Vec)
    (batch : Bool) : Option (List ℕ) :=
  let Xp := pre X
  let distances : Option (List (List ℚ)) :=
    match sampleWeight with
    | none =>
      if batch then batch_distances Xp centers m d
      else some (unbatched_distances Xp centers d)
    | some w =>
      let weightX := Xp.map fun x => List.zipWith (· * ·) x w
      if batch then
        let _ := batch_distances weightX centers m d
        none
      else some (unbatched_distances weightX centers d)
  match distances with
  | none => none
  | some D => some (assignLabels D Xp.length)

/-! ## Helper lemmas -/

theorem chunkListF_nil {α : Type _} (m fuel : ℕ) : chunkListF m fuel ([] : List α) = [] := by
  cases fuel <;> rfl

theorem chunkListF_fuel {α : Type _} (m : ℕ) :
    ∀ (fuel fuel' : ℕ) (l : List α), l.length ≤ fuel → l.length ≤ fuel' → 0 < m →
      chunkListF m fuel l = chunkListF m fuel' l := by
  intro fuel
  induction fuel with
  | zero =>
    intro fuel' l hl _ _
    have : l = [] := List.eq_nil_of_length_eq_zero (Nat.le_zero.mp hl)
    subst this
    simp [chunkListF_nil]
  | succ f ih =>
    intro fuel' l hl hl' hm
    cases l with
    | nil => simp [chunkListF_nil]
    | cons a t =>
      cases fuel' with
      | zero => simp at hl'
      | succ f' =>
        show (a :: t).take m :: chunkListF m f ((a :: t).drop m) =
          (a :: t).take m :: chunkListF m f' ((a :: t).drop m)
        have hdrop : ((a :: t).drop m).length = (a :: t).length - m := List.length_drop ..
        have h1 : ((a :: t).drop m).length ≤ f := by
          rw [hdrop]; omega
        have h2 : ((a :: t).drop m).length ≤ f' := by
          rw [hdrop]; omega
        rw [ih f' _ h1 h2 hm]

theorem chunkListF_flatten {α : Type _} (m : ℕ) (hm : 0 < m) :
    ∀ (fuel : ℕ) (l : List α), l.length ≤ fuel → (chunkListF m fuel l).flatten = l := by
  intro fuel
  induction fuel with
  | zero =>
    intro l hl
    have : l = [] := List.eq_nil_of_length_eq_zero (Nat.le_zero.mp hl)
    subst this
    rfl
  | succ f ih =>
    intro l hl
    cases l with
    | nil => rfl
    | cons a t =>
      show (((a :: t).take m :: chunkListF m f ((a :: t).drop m)).flatten) = a :: t
      have hdrop : ((a :: t).drop m).length ≤ f := by
        rw [List.length_drop]; simp at hl ⊢; omega
      simp only [List.flatten_cons, ih _ hdrop]
      exact List.take_append_drop ..

theorem chunkList_flatten {α : Type _} (m : ℕ) (hm : 0 < m) (l : List α) :
    (chunkList m l).flatten = l := by
  unfold chunkList
  rw [if_neg (Nat.pos_iff_ne_zero.mp hm)]
  exact chunkListF_flatten m hm _ l le_rfl

theorem chunkListF_cons_step {α : Type _} (m fuel : ℕ) (l : List α) (hl : l ≠ []) :
    chunkListF m (fuel + 1) l = l.take m :: chunkListF m fuel (l.drop m) := by
  cases l with
  | nil => exact absurd rfl hl
  | cons a t => rfl

theorem chunkListF_length_mem {α : Type _} (m : ℕ) (hm : 0 < m) :
    ∀ (fuel : ℕ) (l : List α), l.length ≤ fuel → m ∣ l.length →
      ∀ ch ∈ chunkListF m fuel l, ch.length = m := by
  intro fuel
  induction fuel with
  | zero =>
    intro l hl _ ch hch
    have : l = [] := List.eq_nil_of_length_eq_zero (Nat.le_zero.mp hl)
    subst this
    simp [chunkListF_nil] at hch
  | succ f ih =>
    intro l hl hdvd ch hch
    cases l with
    | nil => simp [chunkListF_nil] at hch
    | cons a t =>
      have hlen : m ≤ (a :: t).length := by
        rcases hdvd with ⟨c, hc⟩
        rcases Nat.eq_zero_or_pos c with h0 | hpos
        · simp [h0] at hc
        · calc m = m * 1 := (Nat.mul_one m).symm
            _ ≤ m * c := Nat.mul_le_mul_left m hpos
            _ = (a :: t).length := hc.symm
      cases hch with
      | head =>
        rw [List.length_take]
        omega
      | tail _ htail =>
        have hdl : ((a :: t).drop m).length = (a :: t).length - m := List.length_drop ..
        refine ih ((a :: t).drop m) ?_ ?_ ch htail
        · rw [hdl]; omega
        · rw [hdl]
          exact Nat.dvd_sub' hdvd dvd_rfl

theorem chunkList_length_mem {α : Type _} (m : ℕ) (hm : 0 < m) (l : List α)
    (hdvd : m ∣ l.length) : ∀ ch ∈ chunkList m l, ch.length = m := by
  unfold chunkList
  rw [if_neg (Nat.pos_iff_ne_zero.mp hm)]
  exact chunkListF_length_mem m hm _ l le_rfl hdvd

theorem chunkList_ne_nil {α : Type _} (m : ℕ) (hm : 0 < m) (l : List α) (hl : l ≠ []) :
    chunkList m l ≠ [] := by
  unfold chunkList
  rw [if_neg (Nat.pos_iff_ne_zero.mp hm)]
  cases l with
  | nil => exact absurd rfl hl
  | cons a t => simp [chunkListF]

theorem chunkList_singleton {α : Type _} (m : ℕ) (hm : 0 < m) (l : List α)
    (hl : l.length = m) : chunkList m l = [l] := by
  unfold chunkList
  rw [if_neg (Nat.pos_iff_ne_zero.mp hm)]
  have hne : l ≠ [] := by
    intro h
    subst h
    simp at hl
    omega
  obtain ⟨L, hL⟩ : ∃ L, l.length = L + 1 := by
    cases l with
    | nil => exact absurd rfl hne
    | cons a t => exact ⟨t.length, rfl⟩
  rw [hL, chunkListF_cons_step m L l hne, ← hl, List.take_length, List.drop_length,
    chunkListF_nil]

theorem chunkList_pair {α : Type _} (m : ℕ) (hm : 0 < m) (a b : List α)
    (ha : a.length = m) (hb : b.length = m) : chunkList m (a ++ b) = [a, b] := by
  unfold chunkList
  rw [if_neg (Nat.pos_iff_ne_zero.mp hm)]
  have hab : (a ++ b).length = m + m := by simp [ha, hb]
  have hne : a ++ b ≠ [] := by
    intro h
    have := congrArg List.length h
    rw [hab] at this
    simp at this
    omega
  obtain ⟨L, hL⟩ : ∃ L, (a ++ b).length = L + 1 := ⟨(a ++ b).length - 1, by omega⟩
  rw [hL, chunkListF_cons_step m L (a ++ b) hne, List.take_left' ha, List.drop_left' ha]
  have hbne : b ≠ [] := by
    intro h
    subst h
    simp at hb
    omega
  have hfuel : chunkListF m L b = chunkListF m b.length b := by
    refine chunkListF_fuel m L b.length b ?_ le_rfl hm
    omega
  rw [hfuel]
  obtain ⟨Lb, hLb⟩ : ∃ Lb, b.length = Lb + 1 := by
    cases b with
    | nil => exact absurd rfl hbne
    | cons y s => exact ⟨s.length, rfl⟩
  rw [hLb, chunkListF_cons_step m Lb b hbne, ← hb, List.take_length, List.drop_length,
    chunkListF_nil]

theorem listGetZ_natCast {α : Type _} :
    ∀ (l : List α) (n : ℕ), listGetZ l (n : ℤ) = l[n]? := by
  intro l
  induction l with
  | nil => intro n; rfl
  | cons a t ih =>
    intro n
    cases n with
    | zero => simp [listGetZ]
    | succ j =>
      show (if ((j + 1 : ℕ) : ℤ) = 0 then some a else listGetZ t (((j + 1 : ℕ) : ℤ) - 1)) = _
      rw [if_neg (by exact_mod_cast Nat.succ_ne_zero j)]
      have hc : ((j + 1 : ℕ) : ℤ) - 1 = (j : ℤ) := by push_cast; ring
      rw [hc, ih j, List.getElem?_cons_succ]

theorem npIndex_natCast {α : Type _} (l : List α) (n : ℕ) : npIndex l (n : ℤ) = l[n]? := by
  unfold npIndex
  rw [if_pos (Int.natCast_nonneg n)]
  exact listGetZ_natCast l n

theorem npGather_append {α : Type _} (bd : List α) :
    ∀ (xs ys : List ℤ) (as bs : List α), npGather bd xs = some as → npGather bd ys = some bs →
      npGather bd (xs ++ ys) = some (as ++ bs) := by
  intro xs
  induction xs with
  | nil =>
    intro ys as bs hx hy
    simp [npGather] at hx
    subst hx
    simpa using hy
  | cons i is ih =>
    intro ys as bs hx hy
    show npGather bd (i :: (is ++ ys)) = some (as ++ bs)
    unfold npGather at hx ⊢
    cases hni : npIndex bd i with
    | none => rw [hni] at hx; simp at hx
    | some r =>
      rw [hni] at hx
      cases hre : npGather bd is with
      | none => rw [hre] at hx; simp at hx
      | some rs =>
        rw [hre] at hx
        simp at hx
        subst hx
        rw [ih ys rs bs hre hy]
        rfl

theorem npGather_of_forall {α : Type _} (bd : List α) (g : ℤ → α) :
    ∀ (is : List ℤ), (∀ i ∈ is, npIndex bd i = some (g i)) →
      npGather bd is = some (is.map g) := by
  intro is
  induction is with
  | nil => intro _; rfl
  | cons i t ih =>
    intro h
    unfold npGather
    rw [h i (List.mem_cons_self i t), ih fun j hj => h j (List.mem_cons_of_mem i hj)]
    rfl

theorem pairFlat_length {γ δ : Type _} (f0 f1 : γ → δ) :
    ∀ C : List γ, (C.flatMap fun ch => [f0 ch, f1 ch]).length = 2 * C.length := by
  intro C
  induction C with
  | nil => rfl
  | cons c cs ih =>
    show (f0 c :: f1 c :: cs.flatMap fun ch => [f0 ch, f1 ch]).length = 2 * (cs.length + 1)
    simp only [List.length_cons, ih]
    ring

theorem pairFlat_getElem_even {γ δ : Type _} (f0 f1 : γ → δ) (dflt : γ) :
    ∀ (C : List γ) (i : ℕ), i < C.length →
      (C.flatMap fun ch => [f0 ch, f1 ch])[2 * i]? = some (f0 (C.getD i dflt)) := by
  intro C
  induction C with
  | nil => intro i hi; simp at hi
  | cons c cs ih =>
    intro i hi
    show (f0 c :: f1 c :: cs.flatMap fun ch => [f0 ch, f1 ch])[2 * i]? = _
    cases i with
    | zero => rfl
    | succ j =>
      have h2 : 2 * (j + 1) = (2 * j + 1) + 1 := by ring
      rw [h2, List.getElem?_cons_succ, List.getElem?_cons_succ]
      have hj : j < cs.length := by simp at hi; omega
      rw [ih j hj]
      rfl

theorem pairFlat_getElem_odd {γ δ : Type _} (f0 f1 : γ → δ) (dflt : γ) :
    ∀ (C : List γ) (i : ℕ), i < C.length →
      (C.flatMap fun ch => [f0 ch, f1 ch])[2 * i + 1]? = some (f1 (C.getD i dflt)) := by
  intro C
  induction C with
  | nil => intro i hi; simp at hi
  | cons c cs ih =>
    intro i hi
    show (f0 c :: f1 c :: cs.flatMap fun ch => [f0 ch, f1 ch])[2 * i + 1]? = _
    cases i with
    | zero => simp
    | succ j =>
      have h2 : 2 * (j + 1) + 1 = (2 * j + 1 + 1) + 1 := by ring
      rw [h2, List.getElem?_cons_succ, List.getElem?_cons_succ]
      have hj : j < cs.length := by simp at hi; omega
      rw [ih j hj]
      rfl

theorem map_getD_range {δ : Type _} (dflt : δ) :
    ∀ l : List δ, (List.range l.length).map (fun i => l.getD i dflt) = l := by
  intro l
  induction l with
  | nil => rfl
  | cons a t ih =>
    show (List.range (t.length + 1)).map (fun i => (a :: t).getD i dflt) = a :: t
    rw [List.range_succ_eq_map, List.map_cons, List.map_map]
    show (a :: t).getD 0 dflt :: (List.range t.length).map
      (fun i => (a :: t).getD (Nat.succ i) dflt) = a :: t
    have : (fun i => (a :: t).getD (Nat.succ i) dflt) = fun i => t.getD i dflt := by
      funext i
      rfl
    rw [this, ih]
    rfl

theorem getElem?_eq_some_getD {δ : Type _} {l : List δ} {i : ℕ} (h : i < l.length)
    (dflt : δ) : l[i]? = some (l.getD i dflt) := by
  rw [List.getD_eq_getElem?_getD, List.getElem?_eq_getElem h]
  rfl

theorem flatMap_single {γ δ : Type _} (f : γ → δ) :
    ∀ C : List γ, (C.flatMap fun x => [f x]) = C.map f := by
  intro C
  induction C with
  | nil => rfl
  | cons c cs ih =>
    show f c :: (cs.flatMap fun x => [f x]) = f c :: cs.map f
    rw [ih]

theorem flatten_map_map {γ δ : Type _} (f : γ → δ) (C : List (List γ)) :
    (C.map fun ch => ch.map f).flatten = C.flatten.map f :=
  (List.map_flatten f C).symm


theorem batch_collect_one (bd : List (List ℚ)) (n : ℕ) (_hn : 0 < n)
    (hflat : bd.flatten.length = 1 * n) :
    batch_collect bd 1 n = some (chunkList n bd.flatten) := by
  simp only [batch_collect]
  rw [if_neg one_ne_zero]
  have hgather : npGather bd ((List.range bd.length).map fun i =>
      if i < bd.length / 1 then ((1 : ℕ) : ℤ) * (i : ℤ)
      else ((1 : ℕ) : ℤ) * (i : ℤ) - (bd.length : ℤ) + 1) = some bd := by
    have h1 : ((List.range bd.length).map fun i =>
        if i < bd.length / 1 then ((1 : ℕ) : ℤ) * (i : ℤ)
        else ((1 : ℕ) : ℤ) * (i : ℤ) - (bd.length : ℤ) + 1) =
        (List.range bd.length).map fun i : ℕ => (i : ℤ) := by
      refine List.map_congr_left ?_
      intro i hi
      rw [List.mem_range] at hi
      rw [if_pos (by rw [Nat.div_one]; exact hi)]
      push_cast
      ring
    rw [h1]
    have h2 : ∀ z ∈ (List.range bd.length).map fun i : ℕ => (i : ℤ),
        npIndex bd z = some (bd.getD z.toNat []) := by
      intro z hz
      rcases List.mem_map.mp hz with ⟨i, hi, hz⟩
      rw [List.mem_range] at hi
      rw [← hz, npIndex_natCast, Int.toNat_natCast]
      exact getElem?_eq_some_getD hi []
    rw [npGather_of_forall bd (fun z => bd.getD z.toNat []) _ h2, List.map_map]
    have h3 : (List.range bd.length).map ((fun z : ℤ => bd.getD z.toNat []) ∘ fun i : ℕ => (i : ℤ)) =
        (List.range bd.length).map fun i : ℕ => bd.getD i [] := by
      refine List.map_congr_left ?_
      intro i _
      simp
    rw [h3, map_getD_range [] bd]
  rw [hgather]
  show (if bd.flatten.length = 1 * n then some (chunkList n bd.flatten) else none) = _
  rw [if_pos hflat]

theorem batch_collect_two {γ : Type _} (dflt : γ) (f0 f1 : γ → List ℚ) (C : List γ) (n : ℕ)
    (hflat : ((C.map f0).flatten ++ (C.map f1).flatten).length = 2 * n) :
    batch_collect (C.flatMap fun ch => [f0 ch, f1 ch]) 2 n =
      some (chunkList n ((C.map f0).flatten ++ (C.map f1).flatten)) := by
  simp only [batch_collect]
  rw [if_neg (two_ne_zero)]
  set bd : List (List ℚ) := C.flatMap fun ch => [f0 ch, f1 ch] with hbd
  set q : ℕ := C.length with hq
  have hR : bd.length = 2 * q := pairFlat_length f0 f1 C
  have hdiv : bd.length / 2 = q := by
    rw [hR]
    exact Nat.mul_div_cancel_left q (by norm_num)
  set idxf : ℕ → ℤ := fun i =>
    if i < bd.length / 2 then ((2 : ℕ) : ℤ) * (i : ℤ)
    else ((2 : ℕ) : ℤ) * (i : ℤ) - (bd.length : ℤ) + 1 with hidxf
  have hsplit : List.range bd.length = List.range q ++ (List.range q).map fun x => q + x := by
    rw [hR, two_mul, List.range_add]
  have hpart1 : npGather bd ((List.range q).map idxf) = some (C.map f0) := by
    have h1 : (List.range q).map idxf = (List.range q).map fun i : ℕ => ((2 * i : ℕ) : ℤ) := by
      refine List.map_congr_left ?_
      intro i hi
      rw [List.mem_range] at hi
      rw [hidxf]
      show (if i < bd.length / 2 then _ else _) = _
      rw [if_pos (by rw [hdiv]; exact hi)]
      push_cast
      ring
    rw [h1]
    have h2 : ∀ z ∈ (List.range q).map fun i : ℕ => ((2 * i : ℕ) : ℤ),
        npIndex bd z = some (f0 (C.getD (z.toNat / 2) dflt)) := by
      intro z hz
      rcases List.mem_map.mp hz with ⟨i, hi, hz⟩
      rw [List.mem_range] at hi
      rw [← hz, npIndex_natCast, Int.toNat_natCast,
        Nat.mul_div_cancel_left i (by norm_num : 0 < 2)]
      exact pairFlat_getElem_even f0 f1 dflt C i hi
    rw [npGather_of_forall bd _ _ h2, List.map_map]
    congr 1
    have h3 : (List.range q).map ((fun z : ℤ => f0 (C.getD (z.toNat / 2) dflt)) ∘
        fun i : ℕ => ((2 * i : ℕ) : ℤ)) =
        (List.range q).map fun i : ℕ => f0 (C.getD i dflt) := by
      refine List.map_congr_left ?_
      intro i _
      show f0 (C.getD ((((2 * i : ℕ) : ℤ)).toNat / 2) dflt) = f0 (C.getD i dflt)
      rw [Int.toNat_natCast, Nat.mul_div_cancel_left i (by norm_num : 0 < 2)]
    rw [h3]
    conv_rhs => rw [← map_getD_range dflt C]
    rw [List.map_map]
    rfl
  have hpart2 : npGather bd (((List.range q).map fun x => q + x).map idxf) =
      some (C.map f1) := by
    rw [List.map_map]
    have h1 : (List.range q).map (idxf ∘ fun x => q + x) =
        (List.range q).map fun i : ℕ => ((2 * i + 1 : ℕ) : ℤ) := by
      refine List.map_congr_left ?_
      intro i hi
      rw [List.mem_range] at hi
      show idxf (q + i) = _
      rw [hidxf]
      show (if q + i < bd.length / 2 then _ else _) = _
      rw [if_neg (by rw [hdiv]; omega), hR]
      push_cast
      ring
    rw [h1]
    have h2 : ∀ z ∈ (List.range q).map fun i : ℕ => ((2 * i + 1 : ℕ) : ℤ),
        npIndex bd z = some (f1 (C.getD (z.toNat / 2) dflt)) := by
      intro z hz
      rcases List.mem_map.mp hz with ⟨i, hi, hz⟩
      rw [List.mem_range] at hi
      rw [← hz, npIndex_natCast, Int.toNat_natCast]
      have hdv : (2 * i + 1) / 2 = i := by omega
      rw [hdv]
      exact pairFlat_getElem_odd f0 f1 dflt C i hi
    rw [npGather_of_forall bd _ _ h2, List.map_map]
    congr 1
    have h3 : (List.range q).map ((fun z : ℤ => f1 (C.getD (z.toNat / 2) dflt)) ∘
        fun i : ℕ => ((2 * i + 1 : ℕ) : ℤ)) =
        (List.range q).map fun i : ℕ => f1 (C.getD i dflt) := by
      refine List.map_congr_left ?_
      intro i _
      show f1 (C.getD ((((2 * i + 1 : ℕ) : ℤ)).toNat / 2) dflt) = f1 (C.getD i dflt)
      rw [Int.toNat_natCast]
      have hdv : (2 * i + 1) / 2 = i := by omega
      rw [hdv]
    rw [h3]
    conv_rhs => rw [← map_getD_range dflt C]
    rw [List.map_map]
    rfl
  have hgather : npGather bd ((List.range bd.length).map idxf) =
      some (C.map f0 ++ C.map f1) := by
    rw [hsplit, List.map_append]
    exact npGather_append bd _ _ _ _ hpart1 hpart2
  rw [hgather]
  show (if (C.map f0 ++ C.map f1).flatten.length = 2 * n then
    some (chunkList n (C.map f0 ++ C.map f1).flatten) else none) = _
  rw [List.flatten_append, if_pos hflat]

/-- Round-trip of the batched pipeline against the unbatched estimator
for a single center. -/
theorem batcher_roundtrip_single {α β : Type _} (X : List α) (c0 : β) (m : ℕ)
    (d : α → β → ℚ) (hm : 0 < m) (hdvd : m ∣ X.length) (hgt : 1 < X.length) :
    batch_distances X [c0] m d = some (unbatched_distances X [c0] d) := by
  have hne : X ≠ [] := by
    intro h
    rw [h] at hgt
    simp at hgt
  set g0 : List α → List ℚ := fun ch => ch.map fun x => d x c0 with hg0
  set C : List (List α) := chunkList m X with hC
  have hCne : C ≠ [] := chunkList_ne_nil m hm X hne
  have hchlen : ∀ ch ∈ C, ch.length = m := chunkList_length_mem m hm X hdvd
  have hsep : batch_separate X [c0] m = some (C.map fun ch => (ch, c0)) := by
    unfold batch_separate
    rw [if_neg (Nat.pos_iff_ne_zero.mp hm), if_pos (by simpa using hgt)]
    rw [← flatMap_single (fun ch => (ch, c0)) C]
    rfl
  unfold batch_distances
  rw [hsep]
  show (if ((C.map fun ch => (ch, c0)).map fun b => b.1.map fun x => d x b.2).all _ then _
    else none) = _
  rw [List.map_map]
  have hbd : ((fun (b : List α × β) => b.1.map fun x => d x b.2) ∘ fun ch => (ch, c0)) = g0 := by
    funext ch
    rfl
  rw [hbd]
  have hrows : ∀ r ∈ C.map g0, r.length = m := by
    intro r hr
    rcases List.mem_map.mp hr with ⟨ch, hch, hr⟩
    rw [← hr, hg0]
    simpa using hchlen ch hch
  have hhead : ((C.map g0).headD []).length = m := by
    cases hCc : C with
    | nil => exact absurd hCc hCne
    | cons ch cs =>
      have : ch ∈ C := by rw [hCc]; exact List.mem_cons_self ch cs
      simp [hCc, hg0, hchlen ch this]
  have hall : ((C.map g0).all fun r => r.length = ((C.map g0).headD []).length) = true := by
    rw [List.all_eq_true]
    intro r hr
    simp only [decide_eq_true_eq]
    rw [hrows r hr, hhead]
  rw [if_pos hall]
  simp only [List.length_singleton]
  have hflat : (C.map g0).flatten = X.map fun x => d x c0 := by
    rw [hg0, flatten_map_map, hC, chunkList_flatten m hm X]
  rw [batch_collect_one (C.map g0) X.length (by omega)
    (by rw [hflat]; simp), hflat]
  rw [chunkList_singleton X.length (by omega) _ (by simp)]
  rfl

/-- Round-trip of the batched pipeline against the unbatched estimator
for exactly two centers. -/
theorem batcher_roundtrip_pair {α β : Type _} (X : List α) (c0 c1 : β) (m : ℕ)
    (d : α → β → ℚ) (hm : 0 < m) (hdvd : m ∣ X.length) (hgt : 2 < X.length) :
    batch_distances X [c0, c1] m d = some (unbatched_distances X [c0, c1] d) := by
  have hne : X ≠ [] := by
    intro h
    rw [h] at hgt
    simp at hgt
  set f0 : List α → List ℚ := fun ch => ch.map fun x => d x c0 with hf0
  set f1 : List α → List ℚ := fun ch => ch.map fun x => d x c1 with hf1
  set C : List (List α) := chunkList m X with hC
  have hCne : C ≠ [] := chunkList_ne_nil m hm X hne
  have hchlen : ∀ ch ∈ C, ch.length = m := chunkList_length_mem m hm X hdvd
  have hsep : batch_separate X [c0, c1] m =
      some (C.flatMap fun ch => [(ch, c0), (ch, c1)]) := by
    unfold batch_separate
    rw [if_neg (Nat.pos_iff_ne_zero.mp hm), if_pos (by simpa using hgt)]
    rfl
  unfold batch_distances
  rw [hsep]
  show (if ((C.flatMap fun ch => [(ch, c0), (ch, c1)]).map
      fun b => b.1.map fun x => d x b.2).all _ then _ else none) = _
  rw [List.map_flatMap]
  have hbd : (fun ch => ([(ch, c0), (ch, c1)]).map fun b : List α × β =>
      b.1.map fun x => d x b.2) = fun ch => [f0 ch, f1 ch] := by
    funext ch
    rfl
  rw [hbd]
  set bd : List (List ℚ) := C.flatMap fun ch => [f0 ch, f1 ch] with hbdd
  have hrows : ∀ r ∈ bd, r.length = m := by
    intro r hr
    rw [hbdd] at hr
    rcases List.mem_flatMap.mp hr with ⟨ch, hch, hr⟩
    have hl := hchlen ch hch
    simp only [List.mem_cons, List.not_mem_nil, or_false] at hr
    rcases hr with hr | hr <;> (subst hr; simp [hf0, hf1, hl])
  have hhead : (bd.headD []).length = m := by
    cases hCc : C with
    | nil => exact absurd hCc hCne
    | cons ch cs =>
      have hmem : ch ∈ C := by rw [hCc]; exact List.mem_cons_self ch cs
      have : bd = f0 ch :: f1 ch :: (cs.flatMap fun c => [f0 c, f1 c]) := by
        rw [hbdd, hCc]
        rfl
      rw [this]
      simp [hf0, hchlen ch hmem]
  have hall : (bd.all fun r => r.length = (bd.headD []).length) = true := by
    rw [List.all_eq_true]
    intro r hr
    simp only [decide_eq_true_eq]
    rw [hrows r hr, hhead]
  rw [if_pos hall]
  show batch_collect bd ([c0, c1]).length X.length = _
  simp only [List.length_cons, List.length_nil]
  have hflat0 : (C.map f0).flatten = X.map fun x => d x c0 := by
    rw [hf0, flatten_map_map, hC, chunkList_flatten m hm X]
  have hflat1 : (C.map f1).flatten = X.map fun x => d x c1 := by
    rw [hf1, flatten_map_map, hC, chunkList_flatten m hm X]
  rw [hbdd, batch_collect_two [] f0 f1 C X.length
    (by rw [hflat0, hflat1]; simp; ring), hflat0, hflat1]
  rw [chunkList_pair X.length (by omega) _ _ (by simp) (by simp)]
  rfl

/-- C1 (counterexample): with 4 points, 3 centers and max batch size 2
(so the precondition `len(dataset) > len(centers)` holds), the batched
pipeline crashes with an `IndexError` inside `batch_collect`
(its wrap-around read `batch_d[desired_shape[0]*i - len(batch_d) + 1]`
reaches row 7 of a 6-row array) instead of returning the unbatched
per-pair distance matrix. -/
theorem qkC1_counterexample :
    batch_distances [0, 1, 2, 3] [10, 20, 30] 2 (fun a b => ((a * 100 + b : ℕ) : ℚ)) ≠
      some (unbatched_distances [0, 1, 2, 3] [10, 20, 30]
        (fun a b => ((a * 100 + b : ℕ) : ℚ))) := by
  have h : batch_distances [0, 1, 2, 3] [10, 20, 30] 2
      (fun a b => ((a * 100 + b : ℕ) : ℚ)) = none := by
    norm_num [batch_distances, batch_separate, chunkList, chunkListF, batch_collect, npGather,
      npIndex, listGetZ, List.flatMap]
  rw [h]
  exact fun hc => Option.noConfusion hc

/-- C1 (amended): for one or two centers, a positive max batch size
dividing the number of dataset rows, and strictly more rows than
centers, the batched pipeline (`batch_separate`, per-batch execution,
`batch_collect` into shape `(n_centers, n_points)`) returns exactly the
unbatched per-pair distance matrix, given identical simulated
measurement outcomes (the oracle `d`) for each (point, center) pair. -/
theorem qkC1_batcher_roundtrip_amended {α β : Type _} (X : List α) (clusters : List β)
    (m : ℕ) (d : α → β → ℚ) (hm : 0 < m) (hdvd : m ∣ X.length)
    (hlt : clusters.length < X.length) (hpos : 0 < clusters.length)
    (hle : clusters.length ≤ 2) :
    batch_distances X clusters m d = some (unbatched_distances X clusters d) := by
  match clusters with
  | [] => simp at hpos
  | [c0] =>
    refine batcher_roundtrip_single X c0 m d hm hdvd ?_
    simpa using hlt
  | [c0, c1] =>
    refine batcher_roundtrip_pair X c0 c1 m d hm hdvd ?_
    simpa using hlt
  | c0 :: c1 :: c2 :: rest =>
    exfalso
    simp at hle

/-- C1 (witness): the amended round-trip at a concrete instance —
4 points, 2 centers, batches of 2. -/
theorem qkC1_witness :
    batch_distances [0, 1, 2, 3] [10, 20] 2 (fun a b => ((a * 100 + b : ℕ) : ℚ)) =
      some (unbatched_distances [0, 1, 2, 3] [10, 20] (fun a b => ((a * 100 + b : ℕ) : ℚ))) :=
  qkC1_batcher_roundtrip_amended [0, 1, 2, 3] [10, 20] 2 _ (by norm_num)
    (by norm_num) (by norm_num) (by norm_num) (by norm_num)

/-- C2 (counterexample): an executed batched probability-encoding
circuit whose histogram contains exactly one distinct outcome — the
divergent bitstring `'001'` itself with all 1024 shots — decodes to
`1024/1024 = 1.0` in the source (lines 253-254), not to the `0.0` the
claimed decoding rule requires for every single-outcome histogram. -/
theorem qkC2_counterexample :
    decode_batch_prob 2 [(divergentKey 2, 1024)] ≠
      claimDecode 2 [(divergentKey 2, 1024)] := by
  have h1 : decode_batch_prob 2 [(divergentKey 2, 1024)] = 1 := by
    norm_num [decode_batch_prob, histLookup]
  have h2 : claimDecode 2 [(divergentKey 2, 1024)] = 0 := by
    norm_num [claimDecode, histLookup]
  rw [h1, h2]
  norm_num

/-- C2 (amended): the claimed rule — `0.0` for a single-outcome
histogram, otherwise divergent-bitstring count over 1024 — holds for
the angle-encoding decoders of both the unbatched and the batched path
(which agree), whenever the histogram is single-outcome or contains the
divergent key (otherwise they raise `KeyError`).  The batched
probability decoder instead always returns divergent-count/1024 with
default `0.0` (agreeing with the rule only on multi-outcome
histograms), and the unbatched probability decoder returns `0.0` on a
single-outcome histogram but crashes on any other. -/
theorem qkC2_decoding_amended (h : Hist) (pre : ℕ) :
    (decode_distance_angle h = decode_batch_angle h) ∧
    (h.length = 1 → decode_distance_angle h = some (claimDecode 2 h)) ∧
    (∀ c, histLookup "001" h = some c → decode_distance_angle h = some (claimDecode 2 h)) ∧
    (h.length ≠ 1 → decode_batch_prob pre h = claimDecode pre h) ∧
    (h.length ≠ 1 → decode_distance_prob h = none) ∧
    (h.length = 1 → decode_distance_prob h = some 0) := by
  refine ⟨rfl, ?_, ?_, ?_, ?_, ?_⟩
  · intro h1
    rw [decode_distance_angle, claimDecode, if_pos h1, if_pos h1]
  · intro c hc
    by_cases h1 : h.length = 1
    · rw [decode_distance_angle, claimDecode, if_pos h1, if_pos h1]
    · rw [decode_distance_angle, claimDecode, if_neg h1, if_neg h1]
      have hk : divergentKey 2 = "001" := by decide
      rw [hk, hc]
      rfl
  · intro h1
    rw [decode_batch_prob, claimDecode, if_neg h1]
    cases hc : histLookup (divergentKey pre) h with
    | none => simp
    | some c => simp
  · intro h1
    rw [decode_distance_prob, if_neg h1]
  · intro h1
    rw [decode_distance_prob, if_pos h1]

/-- C2 (witness): the amended statement applied to the concrete
two-outcome histogram `{'000': 600, '001': 424}`: the unbatched angle
decoder yields exactly the claimed rule's value. -/
theorem qkC2_witness :
    decode_distance_angle [("000", 600), ("001", 424)] =
      some (claimDecode 2 [("000", 600), ("001", 424)]) :=
  (qkC2_decoding_amended [("000", 600), ("001", 424)] 2).2.2.1 424 (by
    have hne : ("000" : String) ≠ "001" := by decide
    simp [histLookup, hne])

/-- C3 (code bug): for the 3-feature (non-power-of-two) vectors
`x = [1,0,0]`, `y = [0,1,0]` under probability encoding, the unbatched
`distance` allocates `k = ceil(log2 3) = 2` qubits per operand plus one
control (5 qubits), but its `initialize` calls carry the *raw*
3-element vectors — the zero-padded `n_x = [1,0,0,0]` it computes on
lines 128-131 is never used — while the batched non-power-of-two path
(lines 377-399) does prepare the zero-padded vector. -/
theorem qkC3_padding_bug :
    (distance_prob_circuit [1, 0, 0] [0, 1, 0]).qubits = 5 ∧
    (distance_prob_circuit [1, 0, 0] [0, 1, 0]).gates.headD Gate.reset =
      Gate.prep [1, 0, 0] [1, 2] ∧
    zeroPad (ceilLog2 3) [1, 0, 0] = [1, 0, 0, 0] ∧
    Gate.prep ([1, 0, 0] : List ℚ) [1, 2] ≠ Gate.prep [1, 0, 0, 0] [1, 2] ∧
    (batch_prob_pad_circuit 3 [1, 0, 0] [0, 1, 0]).gates.headD Gate.reset =
      Gate.prep [1, 0, 0, 0] [1, 2] := by
  refine ⟨?_, ?_, ?_, ?_, ?_⟩
  · norm_num [distance_prob_circuit, ceilLog2, List.range, List.range.loop]
  · norm_num [distance_prob_circuit, ceilLog2, List.range, List.range.loop]
  · norm_num [zeroPad, ceilLog2, List.range, List.range.loop, List.replicate]
  · intro hcon
    simp only [Gate.prep.injEq] at hcon
    have := congrArg List.length hcon.1
    simp at this
  · norm_num [batch_prob_pad_circuit, floorLog2, zeroPad, List.range, List.range.loop,
      List.replicate]

/-- C4 (code bug): for 3-feature angle encoding with `norm_relevance`,
the unbatched `distance` applies the second (magnitude) rotation of the
*second* operand to qubit 1 — the first operand's data qubit — because
line 115 reads `qc.u3(ro_2, 0, 0, qr[1])`; qubit 2 never receives a
magnitude rotation.  The batched path applies it to qubit 2 (with the
`π/2` scaling).  Shown on `x = (1, 0, 1/2)`, `y = (0, 1, 3/4)`. -/
theorem qkC4_rotation_target_bug :
    (distance_angle3_circuit 1 0 (1/2) 0 1 (3/4)).gates =
      [ Gate.h 0, Gate.h 1, Gate.h 2,
        Gate.u3 (AngleE.argOf 1 0) (AngleE.mulPi 1) (AngleE.mulPi 1) 1,
        Gate.u3 (AngleE.mulPi (1/2)) (AngleE.mulPi 0) (AngleE.mulPi 0) 1,
        Gate.u3 (AngleE.argOf 0 1) (AngleE.mulPi 1) (AngleE.mulPi 1) 2,
        Gate.u3 (AngleE.mulPi (3/4)) (AngleE.mulPi 0) (AngleE.mulPi 0) 1,
        Gate.cswap 0 1 2, Gate.h 0, Gate.measure 0 0, Gate.reset ] ∧
    (∀ th ph la, Gate.u3 th ph la 2 ∈ (distance_angle3_circuit 1 0 (1/2) 0 1 (3/4)).gates →
      th = AngleE.argOf 0 1) ∧
    Gate.u3 (AngleE.mulPi (3/4 / 2)) (AngleE.mulPi 0) (AngleE.mulPi 0) 2 ∈
      (batch_angle3_circuit 1 0 (1/2) 0 1 (3/4)).gates := by
  refine ⟨rfl, ?_, ?_⟩
  · intro th ph la hmem
    simp only [distance_angle3_circuit, List.mem_cons, List.not_mem_nil, or_false] at hmem
    rcases hmem with hc | hc | hc | hc | hc | hc | hc | hc | hc | hc | hc <;>
      simp_all
  · simp [batch_angle3_circuit]

/-- C5 (code bug): `predict` with a per-feature `sample_weight` and the
default `batch=True` computes `batch_distances(weight_X, ...)` but
never assigns it to `distances` (line 652), so the subsequent read of
`distances` raises `UnboundLocalError` — no labels are returned; the
same call with `batch=False` returns the nearest-centroid labels of the
weighted data. -/
theorem qkC5_predict_weighted_bug :
    QuantumKMeans_predict id (fun x c => |x.getD 0 0 - c.getD 0 0|) 10
      [[0], [10]] [[1], [9]] (some [1]) true = none ∧
    QuantumKMeans_predict id (fun x c => |x.getD 0 0 - c.getD 0 0|) 10
      [[0], [10]] [[1], [9]] (some [1]) false = some [0, 1] := by
  constructor
  · norm_num [QuantumKMeans_predict]
  · norm_num [QuantumKMeans_predict, unbatched_distances, assignLabels, columnOf, argminList,
      argminGo, List.zipWith, List.range_succ]

/-- C8 (counterexample): angle encoding with 3 features and
`norm_relevance=False` is not covered by any branch of `distance`, and
the call falls through returning Python `None` — it does not raise an
`UnsupportedEncodingError` (no such exception exists anywhere in the
source). -/
theorem qkC8_counterexample :
    distanceCase "angle" 3 false = DistCall.returnsNone ∧
    DistCall.returnsNone ≠ DistCall.raisesError := by
  constructor
  · rfl
  · intro hcon
    exact DistCall.noConfusion hcon

/-- C8 (amended): every scheme/dimension combination not covered by the
encoder's cases (angle with a feature count other than 2, and other
than 3-with-norm-relevance; or an unrecognized scheme tag) makes
`distance` fall off the end of its body and return `None`, rather than
raising any error or building a circuit. -/
theorem qkC8_uncovered_returns_none (mapType : String) (n : ℕ) (nr : Bool)
    (hu : uncoveredCombo mapType n nr) :
    distanceCase mapType n nr = DistCall.returnsNone := by
  rcases hu with ⟨ha, hn⟩ | ⟨ha, hp⟩
  · rw [distanceCase, if_pos ha]
    push_neg at hn
    rw [if_neg hn.1]
    rcases Classical.em (n = 3) with h3 | h3
    · have : ¬(n = 3 ∧ nr = true) := by
        intro hcon
        exact (hn.2 hcon.1) (by rw [hcon.2])
      rw [if_neg this]
    · have : ¬(n = 3 ∧ nr = true) := fun hcon => h3 hcon.1
      rw [if_neg this]
  · rw [distanceCase, if_neg ha, if_neg hp]

/-- C8 (witness): the amended statement at the concrete uncovered
combination (angle, 3 features, no norm_relevance). -/
theorem qkC8_witness : distanceCase "angle" 3 false = DistCall.returnsNone :=
  qkC8_uncovered_returns_none "angle" 3 false
    (Or.inl ⟨rfl, by norm_num⟩)

theorem sum_map_add {γ : Type _} (l : List γ) (f g : γ → ℚ) :
    (l.map fun j => f j + g j).sum = (l.map f).sum + (l.map g).sum := by
  induction l with
  | nil => simp
  | cons a t ih =>
    simp only [List.map_cons, List.sum_cons, ih]
    ring

theorem colSums_eq_rowSums (M : List (List ℚ)) (w : ℕ) (hw : ∀ r ∈ M, r.length = w) :
    ((List.range w).map fun j => (M.map fun r => r.getD j 0).sum).sum =
      (M.map List.sum).sum := by
  induction M with
  | nil => simp
  | cons r t ih =>
    have hr : r.length = w := hw r (List.mem_cons_self r t)
    have ht : ∀ x ∈ t, x.length = w := fun x hx => hw x (List.mem_cons_of_mem r hx)
    have hsplit : ((List.range w).map fun j => ((r :: t).map fun row => row.getD j 0).sum) =
        (List.range w).map fun j => r.getD j 0 + (t.map fun row => row.getD j 0).sum := by
      refine List.map_congr_left ?_
      intro j _
      simp
    rw [hsplit, sum_map_add, ih ht]
    have hrw : (List.range w).map (fun j => r.getD j 0) = r := by
      rw [← hr]
      exact map_getD_range 0 r
    rw [hrw]
    simp

/-- C7: in every fit iteration the convergence decision
`abs((new - old).sum(axis=0).sum()) < tol` (the Boolean `convCheck`
used by `fitLoop`) holds exactly when the absolute value of the single
scalar obtained by summing the signed elementwise differences
(new minus old) over all centroid coordinates is strictly below `tol`
— for aligned rectangular centroid frames. -/
theorem qkC7_convergence_signed_sum (newC oldC : List (List ℚ)) (tol : ℚ)
    (hw : ∀ r ∈ matDiff newC oldC, r.length = ((matDiff newC oldC).headD []).length) :
    convCheck newC oldC tol = true ↔
      |((matDiff newC oldC).map List.sum).sum| < tol := by
  have hkey : (colSums (matDiff newC oldC)).sum = ((matDiff newC oldC).map List.sum).sum :=
    colSums_eq_rowSums _ _ hw
  simp only [convCheck, colSums, decide_eq_true_eq]
  simp only [colSums] at hkey
  rw [hkey]

/-- C7 (witness): the convergence criterion at a concrete pair of
2×2 centroid frames: differences `[[0,0],[0,1]]` sum to `1`,
which is not below `tol = 1/2` (and `convCheck` agrees). -/
theorem qkC7_witness :
    convCheck [[1, 2], [3, 4]] [[1, 2], [3, 3]] (1/2) = true ↔
      |((matDiff [[1, 2], [3, 4]] [[1, 2], [3, 3]]).map List.sum).sum| < (1/2 : ℚ) :=
  qkC7_convergence_signed_sum [[1, 2], [3, 4]] [[1, 2], [3, 3]] (1/2) (by
    intro r hr
    norm_num [matDiff, List.zipWith] at hr ⊢
    rcases hr with h | h <;> rw [h] <;> norm_num [matDiff, List.zipWith])

theorem fitLoop_nIter_shift (X : List Vec) (estim : List Vec → List (List ℚ)) (prob : Bool)
    (renorm : Vec → Vec) (tol : ℚ) :
    ∀ (fuel : ℕ) (C : List Vec) (ls : List ℕ) (i : ℕ),
      fitLoop X estim prob renorm tol fuel ⟨C, ls, i⟩ =
        ⟨(fitLoop X estim prob renorm tol fuel ⟨C, ls, 0⟩).centers,
         (fitLoop X estim prob renorm tol fuel ⟨C, ls, 0⟩).labels,
         i + (fitLoop X estim prob renorm tol fuel ⟨C, ls, 0⟩).nIter⟩ := by
  intro fuel
  induction fuel with
  | zero =>
    intro C ls i
    simp [fitLoop]
  | succ f ih =>
    intro C ls i
    simp only [fitLoop]
    by_cases hc : convCheck (fitStep X estim prob renorm C).1 C tol
    · simp [hc]
    · simp only [hc, Bool.false_eq_true, if_false]
      rw [ih (fitStep X estim prob renorm C).1 (fitStep X estim prob renorm C).2 (i + 1),
        ih (fitStep X estim prob renorm C).1 (fitStep X estim prob renorm C).2 (0 + 1)]
      simp only [FitState.mk.injEq, true_and]
      omega

/-- C10: `fit` never resets `n_iter_`: over any two consecutive `fit`
calls on the same instance (each re-initializing centers, each running
its while-loop with fuel `max_iter`), the final `n_iter_` equals the
sum of the iteration counts of both calls — the cumulative total, not
the count of the most recent call — and `n_iter_` never decreases. -/
theorem qkC10_nIter_cumulative (X : List Vec) (estim : List Vec → List (List ℚ))
    (prob : Bool) (renorm : Vec → Vec) (tol : ℚ) (fuel1 fuel2 : ℕ)
    (C0 C1 : List Vec) (ls0 : List ℕ) :
    (fitLoop X estim prob renorm tol fuel2
        ⟨C1, (fitLoop X estim prob renorm tol fuel1 ⟨C0, ls0, 0⟩).labels,
             (fitLoop X estim prob renorm tol fuel1 ⟨C0, ls0, 0⟩).nIter⟩).nIter =
      (fitLoop X estim prob renorm tol fuel1 ⟨C0, ls0, 0⟩).nIter +
      (fitLoop X estim prob renorm tol fuel2
        ⟨C1, (fitLoop X estim prob renorm tol fuel1 ⟨C0, ls0, 0⟩).labels, 0⟩).nIter ∧
    ∀ (fuel : ℕ) (C : List Vec) (ls : List ℕ) (i : ℕ),
      i ≤ (fitLoop X estim prob renorm tol fuel ⟨C, ls, i⟩).nIter := by
  constructor
  · rw [fitLoop_nIter_shift X estim prob renorm tol fuel2 C1
      (fitLoop X estim prob renorm tol fuel1 ⟨C0, ls0, 0⟩).labels
      (fitLoop X estim prob renorm tol fuel1 ⟨C0, ls0, 0⟩).nIter]
  · intro fuel C ls i
    rw [fitLoop_nIter_shift X estim prob renorm tol fuel C ls i]
    show i ≤ i + (fitLoop X estim prob renorm tol fuel ⟨C, ls, 0⟩).nIter
    omega

theorem getD_mem_of_lt {δ : Type _} {l : List δ} {n : ℕ} (h : n < l.length) (d : δ) :
    l.getD n d ∈ l := by
  rw [List.getD_eq_getElem?_getD, List.getElem?_eq_getElem h]
  exact List.getElem_mem h

theorem argminGo_lt (l : List ℚ) :
    ∀ (i bi : ℕ) (bv : ℚ), bi < i → argminGo i bi bv l < i + l.length := by
  induction l with
  | nil =>
    intro i bi bv hbi
    simpa [argminGo] using hbi
  | cons v rest ih =>
    intro i bi bv hbi
    show (if v < bv then argminGo (i + 1) i v rest else argminGo (i + 1) bi bv rest) < _
    by_cases hv : v < bv
    · rw [if_pos hv]
      have := ih (i + 1) i v (Nat.lt_succ_self i)
      simp only [List.length_cons]
      omega
    · rw [if_neg hv]
      have := ih (i + 1) bi bv (Nat.lt_succ_of_lt hbi)
      simp only [List.length_cons]
      omega

theorem argminList_lt (l : List ℚ) (hl : l ≠ []) : argminList l < l.length := by
  cases l with
  | nil => exact absurd rfl hl
  | cons v rest =>
    show argminGo 1 0 v rest < (v :: rest).length
    have := argminGo_lt rest 1 0 v Nat.one_pos
    simp only [List.length_cons]
    omega

theorem getD_nat_lt_of_all {l : List ℕ} {n j dval : ℕ} (h : ∀ v ∈ l, v < n)
    (hd : dval < n) : l.getD j dval < n := by
  rcases Nat.lt_or_ge j l.length with hj | hj
  · exact h _ (getD_mem_of_lt hj dval)
  · rw [List.getD_eq_default _ _ hj]
    exact hd

theorem getD_length_of_all {rows : List (List ℚ)} {n j : ℕ} (hj : j < rows.length)
    (h : ∀ r ∈ rows, r.length = n) : (rows.getD j []).length = n :=
  h _ (getD_mem_of_lt hj [])

theorem pickCandidate_fst_lt (X : List Vec) (d : Vec → Vec → ℚ) (trials : ℕ) (rng : RNG)
    (t : ℕ) (closest : List ℚ) (pot : ℚ) (hn : 0 < X.length)
    (hc : closest.length = X.length) :
    (pickCandidate X d trials rng t closest pot).1 < X.length := by
  simp only [pickCandidate]
  refine getD_nat_lt_of_all ?_ hn
  intro v hv
  rcases List.mem_map.mp hv with ⟨w, _, hw⟩
  rw [← hw]
  have hle : min (searchsorted (cumsum closest) w) (closest.length - 1) ≤
      closest.length - 1 := min_le_right _ _
  omega

theorem pickCandidate_closest_length (X : List Vec) (d : Vec → Vec → ℚ) (trials : ℕ)
    (rng : RNG) (t : ℕ) (closest : List ℚ) (pot : ℚ) (htr : 0 < trials)
    (hc : closest.length = X.length) :
    (pickCandidate X d trials rng t closest pot).2.1.length = X.length := by
  simp only [pickCandidate]
  refine getD_length_of_all ?_ ?_
  · have hlen : ((((List.range trials).map fun i => rng.draws t i * pot).map fun v =>
        min (searchsorted (cumsum closest) v) (closest.length - 1)).map fun id =>
        List.zipWith min closest (X.map fun p => d p (X.getD id []))).length = trials := by
      simp
    rw [hlen]
    have hpots : ((((List.range trials).map fun i => rng.draws t i * pot).map fun v =>
        min (searchsorted (cumsum closest) v) (closest.length - 1)).map fun id =>
        List.zipWith min closest (X.map fun p => d p (X.getD id []))).map
          (fun row => row.sum) ≠ [] := by
      intro hcon
      have := congrArg List.length hcon
      simp at this
      omega
    have := argminList_lt _ hpots
    simp at this ⊢
    omega
  · intro r hr
    rcases List.mem_map.mp hr with ⟨id, _, hid⟩
    rw [← hid, List.length_zipWith, List.length_map, hc]
    simp

/-- Loop invariant for `qkmeans_plusplus`: array lengths are stable and
every index slot below the loop counter holds a valid row index. -/
def QkppInv (k n c : ℕ) (s : QkppState) : Prop :=
  s.indices.length = k ∧ s.centers.length = k ∧ s.closest.length = n ∧
  ∀ i, i < min c k → ∃ e : ℤ, s.indices[i]? = some e ∧ 0 ≤ e ∧ e < (n : ℤ)

theorem qkppBody_inv (X : List Vec) (d : Vec → Vec → ℚ) (trials : ℕ) (rng : RNG)
    (far : Bool) (k n c : ℕ) (s : QkppState) (hX : X.length = n) (hn : 0 < n)
    (htr : 0 < trials) (h : QkppInv k n c s) :
    QkppInv k n (c + 1) (qkppBody X d trials rng far c s) := by
  obtain ⟨hil, hcl, hclo, hvalid⟩ := h
  have hbc : (pickCandidate X d trials rng s.t s.closest s.pot).1 < n := by
    rw [← hX]
    exact pickCandidate_fst_lt X d trials rng s.t s.closest s.pot (by omega) (by omega)
  have hbclen : (pickCandidate X d trials rng s.t s.closest s.pot).2.1.length = n := by
    rw [← hX]
    exact pickCandidate_closest_length X d trials rng s.t s.closest s.pot htr (by omega)
  unfold qkppBody
  by_cases hfar : c = 1 ∧ far
  · rw [if_pos hfar]
    set bc := (pickCandidate X d trials rng s.t s.closest s.pot).1 with hbcd
    set closest2 := X.map fun p => d p (X.getD bc []) with hclo2
    have hclo2len : closest2.length = n := by
      rw [hclo2, List.length_map, hX]
    have hbc2 : (pickCandidate X d trials rng (s.t + 1) closest2 closest2.sum).1 < n := by
      rw [← hX]
      exact pickCandidate_fst_lt X d trials rng _ closest2 _ (by omega) (by omega)
    have hbc2len : (pickCandidate X d trials rng (s.t + 1) closest2
        closest2.sum).2.1.length = n := by
      rw [← hX]
      exact pickCandidate_closest_length X d trials rng _ closest2 _ htr (by omega)
    refine ⟨by simp [hil], by simp [hcl], by simpa using hbc2len, ?_⟩
    intro i hi
    by_cases hi0 : i = 0
    · subst hi0
      refine ⟨(pickCandidate X d trials rng (s.t + 1) closest2 closest2.sum).1, ?_, ?_, ?_⟩
      · show (((s.indices.set c (bc : ℤ)).set 0 _))[0]? = _
        rw [List.getElem?_set]
        rw [if_pos rfl, if_pos (by simp [hil]; omega)]
      · exact Int.natCast_nonneg _
      · exact_mod_cast hbc2
    · by_cases hic : i = c
      · subst hic
        refine ⟨(bc : ℤ), ?_, Int.natCast_nonneg _, by exact_mod_cast hbc⟩
        show (((s.indices.set i (bc : ℤ)).set 0 _))[i]? = _
        rw [List.getElem?_set, if_neg (fun hcon => hi0 hcon.symm), List.getElem?_set,
          if_pos rfl, if_pos (by rw [hil]; omega)]
      · have hiold : i < min c k := by
          rcases hfar with ⟨hc1, _⟩
          omega
        obtain ⟨e, he, he0, hen⟩ := hvalid i hiold
        refine ⟨e, ?_, he0, hen⟩
        show (((s.indices.set c (bc : ℤ)).set 0 _))[i]? = _
        rw [List.getElem?_set, if_neg (fun hcon => hi0 hcon.symm), List.getElem?_set,
          if_neg (fun hcon => hic hcon.symm)]
        exact he
  · rw [if_neg hfar]
    set bc := (pickCandidate X d trials rng s.t s.closest s.pot).1 with hbcd
    refine ⟨by simp [hil], by simp [hcl], by simpa using hbclen, ?_⟩
    intro i hi
    by_cases hic : i = c
    · subst hic
      refine ⟨(bc : ℤ), ?_, Int.natCast_nonneg _, by exact_mod_cast hbc⟩
      show ((s.indices.set i (bc : ℤ)))[i]? = _
      rw [List.getElem?_set, if_pos rfl, if_pos (by rw [hil]; omega)]
    · have hiold : i < min c k := by
        rcases Nat.lt_or_ge i c with hlt | hge
        · omega
        · omega
      obtain ⟨e, he, he0, hen⟩ := hvalid i hiold
      refine ⟨e, ?_, he0, hen⟩
      show ((s.indices.set c (bc : ℤ)))[i]? = _
      rw [List.getElem?_set, if_neg (fun hcon => hic hcon.symm)]
      exact he

theorem qkppLoop_inv (X : List Vec) (d : Vec → Vec → ℚ) (trials : ℕ) (rng : RNG)
    (far : Bool) (k n : ℕ) (hn : 0 < n) (hX : X.length = n) (htr : 0 < trials) :
    ∀ (rem c : ℕ) (s : QkppState), QkppInv k n c s →
      QkppInv k n (c + rem) (qkppLoop X d trials rng far c rem s) := by
  intro rem
  induction rem with
  | zero =>
    intro c s h
    simpa [qkppLoop] using h
  | succ r ih =>
    intro c s h
    show QkppInv k n (c + (r + 1)) (qkppLoop X d trials rng far (c + 1) r
      (qkppBody X d trials rng far c s))
    have hb := qkppBody_inv X d trials rng far k n c s hX hn htr h
    have := ih (c + 1) _ hb
    have harith : c + 1 + r = c + (r + 1) := by omega
    rwa [harith] at this

/-- C6 (counterexample): with 3 data rows, 2 clusters, 2 local trials,
a backend whose decoded distances are all `1` (a perfectly legal noisy
swap-test response, e.g. every histogram `{'001': 1024}` on the batched
probability path) and a random stream drawing `randint = 0` and
`random_sample = 0.0`, `qkmeans_plusplus` returns the row indices
`[0, 0]` — the same row twice, not pairwise distinct. -/
theorem qkC6_counterexample :
    (qkmeans_plusplus [[0], [1], [2]] 2 (fun _ _ => 1) false 2 ⟨0, fun _ _ => 0⟩).2 =
      [0, 0] ∧
    ¬ List.Pairwise (· ≠ ·)
      (qkmeans_plusplus [[0], [1], [2]] 2 (fun _ _ => 1) false 2 ⟨0, fun _ _ => 0⟩).2 := by
  have h : (qkmeans_plusplus [[0], [1], [2]] 2 (fun _ _ => 1) false 2
      ⟨0, fun _ _ => 0⟩).2 = [0, 0] := by
    norm_num [qkmeans_plusplus, qkppLoop, qkppBody, pickCandidate, cumsum, searchsorted,
      bisectGo, argminList, argminGo, List.set, List.getD, List.zipWith]
  refine ⟨h, ?_⟩
  rw [h]
  decide

/-- C6 (amended): with a fixed random stream and fixed backend
responses the seeder is a pure function of its arguments (hence
deterministic across runs); every run returns exactly `n_clusters`
center vectors and `n_clusters` row indices, each index a valid row
position of the dataset — but the indices need not be pairwise
distinct. -/
theorem qkC6_seeder_amended (X : List Vec) (k : ℕ) (d : Vec → Vec → ℚ) (far : Bool)
    (trials : ℕ) (rng : RNG) (hX : X ≠ []) (hk : 0 < k) (htr : 0 < trials) :
    (qkmeans_plusplus X k d far trials rng).2.length = k ∧
    (qkmeans_plusplus X k d far trials rng).1.length = k ∧
    ∀ e ∈ (qkmeans_plusplus X k d far trials rng).2, 0 ≤ e ∧ e < (X.length : ℤ) := by
  have hn : 0 < X.length := List.length_pos.mpr hX
  set n := X.length with hnd
  set cid := rng.rint % n with hcid
  have hcidn : cid < n := Nat.mod_lt _ hn
  have hinv0 : QkppInv k n 1
      ({ centers := (List.replicate k ([] : Vec)).set 0 (X.getD cid [])
         indices := (List.replicate k (-1 : ℤ)).set 0 (cid : ℤ)
         closest := X.map fun p => d p (X.getD cid [])
         pot := (X.map fun p => d p (X.getD cid [])).sum
         t := 0 } : QkppState) := by
    refine ⟨by simp, by simp, by simp, ?_⟩
    intro i hi
    have hi0 : i = 0 := by omega
    subst hi0
    refine ⟨(cid : ℤ), ?_, Int.natCast_nonneg _, by exact_mod_cast hcidn⟩
    show ((List.replicate k (-1 : ℤ)).set 0 (cid : ℤ))[0]? = _
    rw [List.getElem?_set, if_pos rfl, if_pos (by simpa using hk)]
  have hloop := qkppLoop_inv X d trials rng far k n hn rfl htr (k - 1) 1 _ hinv0
  have hck : 1 + (k - 1) = k := by omega
  rw [hck] at hloop
  obtain ⟨hil, hcl, _, hvalid⟩ := hloop
  have hunfold2 : (qkmeans_plusplus X k d far trials rng).2 =
      (qkppLoop X d trials rng far 1 (k - 1)
        ({ centers := (List.replicate k ([] : Vec)).set 0 (X.getD cid [])
           indices := (List.replicate k (-1 : ℤ)).set 0 (cid : ℤ)
           closest := X.map fun p => d p (X.getD cid [])
           pot := (X.map fun p => d p (X.getD cid [])).sum
           t := 0 } : QkppState)).indices := rfl
  have hunfold1 : (qkmeans_plusplus X k d far trials rng).1 =
      (qkppLoop X d trials rng far 1 (k - 1)
        ({ centers := (List.replicate k ([] : Vec)).set 0 (X.getD cid [])
           indices := (List.replicate k (-1 : ℤ)).set 0 (cid : ℤ)
           closest := X.map fun p => d p (X.getD cid [])
           pot := (X.map fun p => d p (X.getD cid [])).sum
           t := 0 } : QkppState)).centers := rfl
  refine ⟨by rw [hunfold2]; exact hil, by rw [hunfold1]; exact hcl, ?_⟩
  intro e he
  rw [hunfold2] at he
  rcases List.mem_iff_getElem?.mp he with ⟨i, hi⟩
  have hik : i < k := by
    by_contra hcon
    push_neg at hcon
    rw [List.getElem?_eq_none (by omega)] at hi
    exact Option.noConfusion hi
  obtain ⟨e2, he2, he20, he2n⟩ := hvalid i (by omega)
  have hee : e = e2 := by
    have heq : some e = some e2 := by rw [← hi, ← he2]
    exact Option.some.inj heq
  rw [hee]
  exact ⟨he20, he2n⟩

/-- C6 (witness): the amended seeder guarantees at a concrete instance
(3 rows, 2 clusters, 2 trials, constant unit distances, zero draws). -/
theorem qkC6_witness :
    (qkmeans_plusplus [[0], [1], [2]] 2 (fun _ _ => 1) false 2
      ⟨0, fun _ _ => 0⟩).2.length = 2 ∧
    (qkmeans_plusplus [[0], [1], [2]] 2 (fun _ _ => 1) false 2
      ⟨0, fun _ _ => 0⟩).1.length = 2 ∧
    ∀ e ∈ (qkmeans_plusplus [[0], [1], [2]] 2 (fun _ _ => 1) false 2
      ⟨0, fun _ _ => 0⟩).2, 0 ≤ e ∧ e < (([[0], [1], [2]] : List Vec).length : ℤ) :=
  qkC6_seeder_amended [[0], [1], [2]] 2 (fun _ _ => 1) false 2 ⟨0, fun _ _ => 0⟩
    (by decide) (by decide) (by decide)

theorem foldl_max_init_le : ∀ (l : List ℕ) (a : ℕ), a ≤ l.foldl max a := by
  intro l
  induction l with
  | nil => intro a; exact le_rfl
  | cons v t ih =>
    intro a
    exact le_trans (le_max_left a v) (ih (max a v))

theorem mem_le_foldl_max : ∀ (l : List ℕ) (a x : ℕ), x ∈ l → x ≤ l.foldl max a := by
  intro l
  induction l with
  | nil => intro a x hx; simp at hx
  | cons v t ih =>
    intro a x hx
    rcases List.mem_cons.mp hx with hx | hx
    · subst hx
      exact le_trans (le_max_right a x) (foldl_max_init_le t (max a x))
    · exact ih (max a v) x hx

theorem mem_distinctLabels (ls : List ℕ) (lab : ℕ) :
    lab ∈ distinctLabels ls ↔ lab ∈ ls := by
  constructor
  · intro h
    rcases List.mem_filter.mp h with ⟨_, hmem⟩
    simpa using hmem
  · intro h
    refine List.mem_filter.mpr ⟨?_, by simpa using h⟩
    rw [List.mem_range]
    have := mem_le_foldl_max ls 0 lab h
    omega

theorem distinctLabels_nodup (ls : List ℕ) : (distinctLabels ls).Nodup :=
  List.Nodup.filter _ (List.nodup_range _)

theorem distinctLabels_ne_nil (ls : List ℕ) (h : ls ≠ []) : distinctLabels ls ≠ [] := by
  cases ls with
  | nil => exact absurd rfl h
  | cons lab t =>
    intro hcon
    have : lab ∈ distinctLabels (lab :: t) :=
      (mem_distinctLabels _ _).mpr (List.mem_cons_self lab t)
    rw [hcon] at this
    simp at this

theorem distinctLabels_length_le (ls : List ℕ) (k : ℕ) (h : ∀ lab ∈ ls, lab < k) :
    (distinctLabels ls).length ≤ k := by
  have hnodup := distinctLabels_nodup ls
  have hcard : (distinctLabels ls).toFinset.card = (distinctLabels ls).length :=
    List.toFinset_card_of_nodup hnodup
  have hsub : (distinctLabels ls).toFinset ⊆ Finset.range k := by
    intro x hx
    rw [List.mem_toFinset] at hx
    rw [Finset.mem_range]
    exact h x ((mem_distinctLabels ls x).mp hx)
  have := Finset.card_le_card hsub
  rw [hcard, Finset.card_range] at this
  exact this

theorem assignLabels_lt (D : List (List ℚ)) (n : ℕ) (hD : D ≠ []) :
    ∀ lab ∈ assignLabels D n, lab < D.length := by
  intro lab hlab
  rcases List.mem_map.mp hlab with ⟨i, _, hi⟩
  rw [← hi]
  have hcol : (columnOf D i).length = D.length := List.length_map ..
  have hcne : columnOf D i ≠ [] := by
    intro hcon
    have := congrArg List.length hcon
    rw [hcol] at this
    exact hD (List.eq_nil_of_length_eq_zero this)
  have := argminList_lt (columnOf D i) hcne
  rwa [hcol] at this

theorem assignLabels_ne_nil (D : List (List ℚ)) (n : ℕ) (hn : 0 < n) :
    assignLabels D n ≠ [] := by
  intro hcon
  have := congrArg List.length hcon
  simp [assignLabels] at this
  omega

theorem updateCenters_length (X : List Vec) (ls : List ℕ) (prob : Bool)
    (renorm : Vec → Vec) :
    (updateCenters X ls prob renorm).length = (distinctLabels ls).length := by
  unfold updateCenters
  cases prob <;> simp

theorem fitStep_invariants (X : List Vec) (estim : List Vec → List (List ℚ)) (prob : Bool)
    (renorm : Vec → Vec) (C : List Vec) (hX : X ≠ []) (hE : (estim C).length = C.length)
    (hC : C ≠ []) :
    (fitStep X estim prob renorm C).1.length =
      (distinctLabels (fitStep X estim prob renorm C).2).length ∧
    (fitStep X estim prob renorm C).1.length ≤ C.length ∧
    (fitStep X estim prob renorm C).1 ≠ [] := by
  have hDne : estim C ≠ [] := by
    intro hcon
    have := congrArg List.length hcon
    rw [hE] at this
    exact hC (List.eq_nil_of_length_eq_zero this)
  have hlab : ∀ lab ∈ assignLabels (estim C) X.length, lab < C.length := by
    intro lab hlab
    have := assignLabels_lt (estim C) X.length hDne lab hlab
    rwa [hE] at this
  have hlabne : assignLabels (estim C) X.length ≠ [] :=
    assignLabels_ne_nil (estim C) X.length (List.length_pos.mpr hX)
  have h1 : (fitStep X estim prob renorm C).1 =
      updateCenters X (assignLabels (estim C) X.length) prob renorm := rfl
  have h2 : (fitStep X estim prob renorm C).2 = assignLabels (estim C) X.length := rfl
  refine ⟨?_, ?_, ?_⟩
  · rw [h1, h2, updateCenters_length]
  · rw [h1, updateCenters_length]
    exact distinctLabels_length_le _ C.length hlab
  · rw [h1]
    intro hcon
    have hlen := congrArg List.length hcon
    rw [updateCenters_length] at hlen
    simp at hlen
    exact distinctLabels_ne_nil _ hlabne hlen

theorem fitLoop_centers_invariant (X : List Vec) (estim : List Vec → List (List ℚ))
    (prob : Bool) (renorm : Vec → Vec) (tol : ℚ) (hX : X ≠ [])
    (hE : ∀ C : List Vec, (estim C).length = C.length) :
    ∀ (fuel : ℕ) (s : FitState), s.centers ≠ [] →
      (fitLoop X estim prob renorm tol fuel s).centers.length ≤ s.centers.length ∧
      (fitLoop X estim prob renorm tol fuel s).centers ≠ [] := by
  intro fuel
  induction fuel with
  | zero =>
    intro s hs
    exact ⟨le_rfl, hs⟩
  | succ f ih =>
    intro s hs
    have hstep := fitStep_invariants X estim prob renorm s.centers hX (hE s.centers) hs
    simp only [fitLoop]
    by_cases hc : convCheck (fitStep X estim prob renorm s.centers).1 s.centers tol
    · simp only [hc, if_true]
      exact ⟨hstep.2.1, hstep.2.2⟩
    · simp only [hc, Bool.false_eq_true, if_false]
      have := ih ⟨(fitStep X estim prob renorm s.centers).1,
        (fitStep X estim prob renorm s.centers).2, s.nIter + 1⟩ hstep.2.2
      exact ⟨le_trans this.1 hstep.2.1, this.2⟩

/-- C9: in every `fit` iteration the stored cluster centers become
exactly the per-label means of the current assignment (one centroid row
per distinct assigned label, re-normalized under probability encoding
via `renorm`), hence their count equals the number of distinct labels,
never exceeds the previous center count, and stays positive; along the
whole `fit` while-loop (any fuel, hence up to and including the final
fitted model) the center count is nonincreasing — so once some centroid
receives no points and the count drops below `n_clusters`, it stays
reduced in every subsequent iteration and in the final model. -/
theorem qkC9_centroid_invariants (X : List Vec) (estim : List Vec → List (List ℚ))
    (prob : Bool) (renorm : Vec → Vec) (tol : ℚ) (hX : X ≠ [])
    (hE : ∀ C : List Vec, (estim C).length = C.length) :
    (∀ C : List Vec, (fitStep X estim prob renorm C).1 =
      updateCenters X (fitStep X estim prob renorm C).2 prob renorm) ∧
    (∀ C : List Vec, C ≠ [] →
      (fitStep X estim prob renorm C).1.length =
        (distinctLabels (fitStep X estim prob renorm C).2).length ∧
      (fitStep X estim prob renorm C).1.length ≤ C.length ∧
      (fitStep X estim prob renorm C).1 ≠ []) ∧
    (∀ (fuel : ℕ) (s : FitState), s.centers ≠ [] →
      (fitLoop X estim prob renorm tol fuel s).centers.length ≤ s.centers.length ∧
      (fitLoop X estim prob renorm tol fuel s).centers ≠ []) := by
  refine ⟨fun C => rfl, ?_, fitLoop_centers_invariant X estim prob renorm tol hX hE⟩
  intro C hC
  exact fitStep_invariants X estim prob renorm C hX (hE C) hC

/-- C9 (witness): the invariants at a concrete instance — two points,
two initial centers, the unbatched estimator with |x - c| distances,
3 loop iterations. -/
theorem qkC9_witness :
    (fitLoop [[0], [1]]
        (fun C => unbatched_distances [[0], [1]] C fun x c => |x.getD 0 0 - c.getD 0 0|)
        false id (1/100) 3 ⟨[[0], [1]], [], 0⟩).centers.length ≤
      ([[0], [1]] : List Vec).length ∧
    (fitLoop [[0], [1]]
        (fun C => unbatched_distances [[0], [1]] C fun x c => |x.getD 0 0 - c.getD 0 0|)
        false id (1/100) 3 ⟨[[0], [1]], [], 0⟩).centers ≠ [] :=
  (qkC9_centroid_invariants [[0], [1]]
      (fun C => unbatched_distances [[0], [1]] C fun x c => |x.getD 0 0 - c.getD 0 0|)
      false id (1/100) (by decide)
      (fun C => List.length_map ..)).2.2 3 ⟨[[0], [1]], [], 0⟩ (by decide)
